import Mathlib

/-!
Verification of the Chronos Discord plugin (`src/plugin.ts`) against its
specification.  JavaScript strings are modelled as `List Char`; each
definition below is a direct translation of the corresponding TypeScript
function.  Machine evaluation stays executable (structural recursion,
fuel where the source recursion is not structural), so concrete scenarios
can be settled by `decide`.
-/

/-- JavaScript strings modelled as lists of characters. -/
abbrev Str := List Char

/-- Whitespace characters removed by JavaScript `String.prototype.trim`
(space, tab, newline, carriage return, vertical tab, form feed). -/
def isJsWs (c : Char) : Bool :=
  c == ' ' || c == '\t' || c == '\n' || c == '\r' || c == Char.ofNat 11 || c == Char.ofNat 12

/-- Model of JavaScript `s.trim()`: strip whitespace from both ends. -/
def jsTrim (s : Str) : Str :=
  (s.rdropWhile isJsWs).dropWhile isJsWs

/-- Index of the first occurrence of `pat` in `l`; `none` models the `-1`
result of JavaScript `String.prototype.indexOf`. -/
def findSubstrIdx (pat : Str) : Str → Option Nat
  | [] => if pat.isEmpty then some 0 else none
  | c :: rest =>
    if pat.isPrefixOf (c :: rest) then some 0
    else (findSubstrIdx pat rest).map (· + 1)

/-- Model of JavaScript `l.includes(pat)` for strings. -/
def includesList (pat l : Str) : Bool :=
  (findSubstrIdx pat l).isSome

/-- Fuel-driven worker for `splitOnList`; the fuel is only a termination
device and is always sufficient when the separator is non-empty. -/
def splitOnListAux (sep : Str) : Nat → Str → List Str
  | 0, l => [l]
  | fuel + 1, l =>
    match findSubstrIdx sep l with
    | none => [l]
    | some i => l.take i :: splitOnListAux sep fuel (l.drop (i + sep.length))

/-- Model of JavaScript `l.split(sep)` for a non-empty string separator. -/
def splitOnList (sep l : Str) : List Str :=
  splitOnListAux sep (l.length + 1) l

/-- Model of JavaScript `l.substring(a, b)` (arguments are swapped when
`a > b`, and indices are clamped to the string length). -/
def jsSubstring (l : Str) (a b : Nat) : Str :=
  (l.take (max a b)).drop (min a b)

/-- Model of JavaScript `l.startsWith(c)` for a single character. -/
def startsWithChar (c : Char) : Str → Bool
  | [] => false
  | d :: _ => d == c

/-- Lower-case a string character-wise, modelling the `i` regex flag for
the ASCII patterns used by the plugin. -/
def lowerStr (s : Str) : Str := s.map Char.toLower

/-- The image file extensions recognized by the plugin's regex
`/\.(jpg|jpeg|png|gif|webp|bmp)$/i`. -/
def imageExts : List Str :=
  ["jpg".data, "jpeg".data, "png".data, "gif".data, "webp".data, "bmp".data]

/-- Model of `url.match(/\.(jpg|jpeg|png|gif|webp|bmp)$/i)` being non-null:
the string ends with a dot and a recognized extension, case-insensitively. -/
def hasImageExt (s : Str) : Bool :=
  imageExts.any (fun e => List.isSuffixOf ('.' :: e) (lowerStr s))

/-- Attachment record as consumed by the plugin; every field the dynamic
code reads is optional, mirroring the duck-typed JavaScript object. -/
structure Attachment where
  id : Option Str
  title : Option Str
  name : Option Str
  source : Option Str
  contentType : Option Str
  url : Option Str

/-- The image classifier used by `downloadImageAction.validate` and the
`MESSAGE_RECEIVED` handler:
`attachment.source === 'Image' || attachment.contentType?.startsWith('image/')
 || attachment.url?.match(/\.(jpg|jpeg|png|gif|webp|bmp)$/i)`. -/
def isImageAttachment (a : Attachment) : Bool :=
  (match a.source with
   | some s => s == "Image".data
   | none => false) ||
  (match a.contentType with
   | some ct => List.isPrefixOf ("image/".data) ct
   | none => false) ||
  (match a.url with
   | some u => hasImageExt u
   | none => false)

/-- Modelled from the JavaScript `URL` builtin (not repository code):
`new URL(u).pathname` for an absolute http(s) URL — the part after the
authority, up to a query or fragment delimiter. -/
def urlPathname (u : Str) : Str :=
  match findSubstrIdx ("://".data) u with
  | none => u
  | some i =>
    let afterScheme := u.drop (i + 3)
    let p := afterScheme.drop ((afterScheme.takeWhile (fun c => !(c == '/'))).length)
    p.takeWhile (fun c => !(c == '?') && !(c == '#'))

/-- Characters kept by the sanitizer `fileName.replace(/[^a-zA-Z0-9._-]/g, '_')`. -/
def isFileNameSafe (c : Char) : Bool :=
  decide (('a' ≤ c ∧ c ≤ 'z') ∨ ('A' ≤ c ∧ c ≤ 'Z') ∨ ('0' ≤ c ∧ c ≤ '9') ∨
    c = '.' ∨ c = '_' ∨ c = '-')

/-- Filename derivation of the `MESSAGE_RECEIVED` handler: prefer
`attachment.title || attachment.name`; otherwise the last path segment of
the URL, falling back to `image_<id>`; append an extension from the
content type (default `png`) when none is recognized; finally replace
every character outside the allow-list with an underscore. -/
def deriveFileName (a : Attachment) (imageUrl : Str) : Str :=
  let fromTitle : Option Str :=
    match a.title with
    | some t => if t.isEmpty then none else some t
    | none => none
  let fromName : Option Str :=
    match a.name with
    | some n => if n.isEmpty then none else some n
    | none => none
  let base : Str :=
    match (match fromTitle with | some t => some t | none => fromName) with
    | some f => f
    | none =>
      let seg := (splitOnList ("/".data) (urlPathname imageUrl)).getLastD []
      if seg.isEmpty then
        "image_".data ++ (match a.id with | some i => i | none => "undefined".data)
      else seg
  let withExt : Str :=
    if hasImageExt base then base
    else
      let extPart : Str :=
        match a.contentType with
        | none => []
        | some ct => (splitOnList ("/".data) ct).getD 1 []
      base ++ ('.' :: (if extPart.isEmpty then "png".data else extPart))
  withExt.map (fun c => if isFileNameSafe c then c else '_')

/-- Literal start marker scanned for by `parseChronosResults`. -/
def startMarkerStr : Str := "DISCORD_RESULTS_START".data

/-- Literal end marker scanned for by `parseChronosResults`. -/
def endMarkerStr : Str := "DISCORD_RESULTS_END".data

/-- Question tag tested by `line.includes('QUESTION_')`. -/
def qTagStr : Str := "QUESTION_".data

/-- Answer tag tested by `line.includes('ANSWER_')`. -/
def aTagStr : Str := "ANSWER_".data

/-- Field separator `':::'` between tag and text. -/
def fieldSepStr : Str := ":::".data

/-- One step of the question/answer collection loop of
`parseChronosResults`: a question-tagged line pushes the trimmed text
after the first `':::'` onto the question list when non-empty, an
answer-tagged line likewise onto the answer list; any other line is
ignored. -/
def parseQAStep (st : List Str × List Str) (line : Str) : List Str × List Str :=
  if includesList qTagStr line && includesList fieldSepStr line then
    let q := jsTrim ((splitOnList fieldSepStr line).getD 1 [])
    if q.isEmpty then st else (st.1 ++ [q], st.2)
  else if includesList aTagStr line && includesList fieldSepStr line then
    let a := jsTrim ((splitOnList fieldSepStr line).getD 1 [])
    if a.isEmpty then st else (st.1, st.2 ++ [a])
  else st

/-- Model of `parseChronosResults`: locate both markers (`none` when either
is absent), take the block strictly between them, split into lines,
discard blank lines, `'---'` separators and `'='`-decorated lines, and
fold the remaining lines into the two ordered sequences. -/
def parseChronosResults (stdout : Str) : Option (List Str × List Str) :=
  match findSubstrIdx startMarkerStr stdout, findSubstrIdx endMarkerStr stdout with
  | some si, some ei =>
    let block := jsSubstring stdout (si + startMarkerStr.length) ei
    let lines := (splitOnList ("\n".data) block).filter
      (fun line => !(jsTrim line).isEmpty && !(line == "---".data) && !(startsWithChar '=' line))
    some (lines.foldl parseQAStep ([], []))
  | _, _ => none

/-- Text between the first and second occurrence of `':::'` on a line (to
the end of the line when there is no second occurrence); this is the
spec-side description of what `line.split(':::')[1]` selects. -/
def textBetweenSeps (line : Str) : Str :=
  match findSubstrIdx fieldSepStr line with
  | none => []
  | some i =>
    let rest := line.drop (i + fieldSepStr.length)
    match findSubstrIdx fieldSepStr rest with
    | none => rest
    | some j => rest.take j

/-- Sentence-terminal punctuation of the regex `/[^.!?]+[.!?]+/g`. -/
def isPunct (c : Char) : Bool :=
  c == '.' || c == '!' || c == '?'

/-- Fuel-driven worker computing the global matches of
`/[^.!?]+[.!?]+/g` on a line: repeatedly skip characters that cannot
start a match, then take a run of non-terminal characters followed by a
run of terminal ones; a trailing run without terminal punctuation is not
a match.  The fuel is only a termination device and is always sufficient. -/
def sentenceMatchesAux : Nat → Str → List Str
  | 0, _ => []
  | _ + 1, [] => []
  | fuel + 1, c :: rest =>
    if isPunct c then sentenceMatchesAux fuel rest
    else
      let a := (c :: rest).takeWhile (fun x => !isPunct x)
      let r1 := (c :: rest).dropWhile (fun x => !isPunct x)
      let b := r1.takeWhile isPunct
      let r2 := r1.dropWhile isPunct
      if b.isEmpty then [] else (a ++ b) :: sentenceMatchesAux fuel r2

/-- Matches of `line.match(/[^.!?]+[.!?]+/g)` (empty list models `null`). -/
def sentenceMatches (l : Str) : List Str :=
  sentenceMatchesAux (l.length + 1) l

/-- Model of `line.match(/[^.!?]+[.!?]+/g) || [line]`. -/
def sentencesOf (line : Str) : List Str :=
  let m := sentenceMatches line
  if m.isEmpty then [line] else m

/-- One iteration of the inner sentence loop of `splitDiscordMessage`: a
sentence that still fits is accumulated; otherwise the running chunk is
flushed (trimmed) and the sentence starts the next chunk. -/
def sentenceStep (maxLength : Nat) (st2 : List Str × Str) (s : Str) : List Str × Str :=
  if maxLength < (st2.2 ++ s).length then
    ((if st2.2.isEmpty then st2.1 else st2.1 ++ [jsTrim st2.2]), s)
  else (st2.1, st2.2 ++ s)

/-- One iteration of the line loop of `splitDiscordMessage`: if appending
the line (plus newline) stays within the limit, accumulate it; otherwise
flush the current chunk (trimmed) and either restart from this line or,
when the line alone exceeds the limit, run the inner sentence loop. -/
def chunkStep (maxLength : Nat) (st : List Str × Str) (line : Str) : List Str × Str :=
  if maxLength < (st.2 ++ line ++ ['\n']).length then
    let flushed : List Str := if st.2.isEmpty then st.1 else st.1 ++ [jsTrim st.2]
    if maxLength < line.length then
      (sentencesOf line).foldl (sentenceStep maxLength) (flushed, [])
    else (flushed, line ++ ['\n'])
  else (st.1, st.2 ++ line ++ ['\n'])

/-- Model of `splitDiscordMessage(text, maxLength = 1900)`: return the text
whole when it fits, otherwise split on newlines, accumulate lines into
chunks under the limit, and split over-long lines at sentence boundaries. -/
def splitDiscordMessage (text : Str) (maxLength : Nat := 1900) : List Str :=
  if text.length ≤ maxLength then [text]
  else
    let st := (splitOnList ("\n".data) text).foldl (chunkStep maxLength) ([], [])
    if st.2.isEmpty then st.1 else st.1 ++ [jsTrim st.2]

/-- Header literal of the Discord report (`responseText` initial value). -/
def reportHeaderStr : Str := "üî¨ **Chronos Analysis Results**\n\n".data

/-- JavaScript array indexing followed by template-literal stringification:
an out-of-bounds access yields `undefined`, printed as `"undefined"`. -/
def jsIndexStr (l : List Str) (i : Nat) : Str :=
  match l.get? i with
  | some s => s
  | none => "undefined".data

/-- One iteration of the report loop of the `MESSAGE_RECEIVED` handler:
`**Q<i+1>:** <questions[i]>\n\n**A<i+1>:** <answers[i]>\n\n---\n\n`. -/
def qaEntry (qs as : List Str) (i : Nat) : Str :=
  "**Q".data ++ (Nat.repr (i + 1)).data ++ ":** ".data ++ jsIndexStr qs i ++ "\n\n".data ++
  "**A".data ++ (Nat.repr (i + 1)).data ++ ":** ".data ++ jsIndexStr as i ++ "\n\n".data ++
  "---\n\n".data

/-- The report text built by the handler: the header followed by one entry
per index of the question list (`for (let i = 0; i < results.questions.length; i++)`). -/
def formatReport (qs as : List Str) : Str :=
  (List.range qs.length).foldl (fun acc i => acc ++ qaEntry qs as i) reportHeaderStr

/-- Process environment modelled as an association list of variables. -/
abbrev EnvMap := List (Str × Str)

/-- Environment handed to the spawned pipeline process:
`const env = { ...process.env }` copies the current environment verbatim
and passes it to `spawn`. -/
def chronosChildEnv (processEnv : EnvMap) : EnvMap := processEnv

/-- The `ENV check` log line of `runChronosPipeline` for one key:
`ENV check - <KEY>: ${env.<KEY>?.substring(0, 20)}...`. -/
def envKeyLogLine (env : EnvMap) (key : Str) : Str :=
  "ENV check - ".data ++ key ++ ": ".data ++
    (match List.lookup key env with
     | some v => v.take 20
     | none => "undefined".data) ++ "...".data

/-- The log lines emitted by `runChronosPipeline` before spawning the
child process (the command line and the two `ENV check` lines). -/
def chronosStartupLogs (env : EnvMap) (pythonCmd script imagePath userId : Str) : List Str :=
  [ "Running Chronos pipeline: ".data ++ pythonCmd ++ " ".data ++ script ++ " ".data ++
      imagePath ++ " ".data ++ userId,
    envKeyLogLine env ("OPENAI_API_KEY".data),
    envKeyLogLine env ("GOOGLE_API_KEY".data) ]

/-- External outcomes of processing one attachment, supplied as an oracle:
whether it has a URL, whether the image fetch succeeds, whether the
Python process spawns, its exit code, and its captured stdout. -/
structure AttOracle where
  hasUrl : Bool
  fetchOk : Bool
  spawnOk : Bool
  exitCode : Nat
  stdout : Str

/-- Resolution of the `runChronosPipeline` promise: `null` when the spawn
fails (`on('error')`) or the exit code is non-zero, otherwise the parse
of the captured stdout.  The promise only ever resolves, never rejects. -/
def runChronos (o : AttOracle) : Option (List Str × List Str) :=
  if !o.spawnOk then none
  else if o.exitCode != 0 then none
  else parseChronosResults o.stdout

/-- Observable effects of the `MESSAGE_RECEIVED` handler for one attachment. -/
inductive Effect where
  | fetchImage
  | writeFile
  | runPipeline
  | sendFailureNotice
  | sendErrorNotice
  | sendChunk (text : Str)
  | attemptDelete
deriving DecidableEq

/-- The `try` block of the per-attachment loop: effects performed, plus the
error thrown when the image fetch response is not ok.  A missing URL is
skipped with `continue`; a `null` or question-less pipeline result sends
the failure notice and continues; on success the report chunks are sent
and the temporary file deletion is attempted (its own failure is swallowed). -/
def attachmentTry (o : AttOracle) : List Effect × Option Str :=
  if !o.hasUrl then ([], none)
  else if !o.fetchOk then ([Effect.fetchImage], some ("Failed to fetch image".data))
  else
    match runChronos o with
    | none => ([Effect.fetchImage, Effect.writeFile, Effect.runPipeline,
                Effect.sendFailureNotice], none)
    | some (qs, as) =>
      if qs.isEmpty then
        ([Effect.fetchImage, Effect.writeFile, Effect.runPipeline,
          Effect.sendFailureNotice], none)
      else
        ([Effect.fetchImage, Effect.writeFile, Effect.runPipeline] ++
          (splitDiscordMessage (formatReport qs as) 1900).map Effect.sendChunk ++
          [Effect.attemptDelete], none)

/-- One iteration of the attachment loop including its `catch`: a thrown
error is converted into the user-visible error notice and not re-raised. -/
def processAttachment (o : AttOracle) : List Effect :=
  match attachmentTry o with
  | (effs, none) => effs
  | (effs, some _) => effs ++ [Effect.sendErrorNotice]

/-- The handler's loop over the image attachments of one message. -/
def processMessage : List AttOracle → List (List Effect)
  | [] => []
  | o :: rest => processAttachment o :: processMessage rest

/-- Invariant preservation along a left fold. -/
theorem foldlInv {α β : Type} {P : β → Prop} (f : β → α → β) (l : List α) (b : β)
    (hb : P b) (hstep : ∀ b a, a ∈ l → P b → P (f b a)) : P (l.foldl f b) := by
  induction l generalizing b with
  | nil => exact hb
  | cons a t ih =>
    exact ih (f b a) (hstep b a (List.mem_cons_self a t) hb)
      (fun b' a' ha' => hstep b' a' (List.mem_cons_of_mem a ha'))

/-- Dropping a satisfying run never lengthens a list. -/
theorem length_dropWhile_le {α : Type} (p : α → Bool) (l : List α) :
    (l.dropWhile p).length ≤ l.length := by
  induction l with
  | nil => simp
  | cons a t ih =>
    by_cases h : p a
    · simp only [List.dropWhile_cons, h, if_true, List.length_cons]
      omega
    · simp [List.dropWhile_cons, h]

/-- Trimming never lengthens a string. -/
theorem jsTrim_length_le (s : Str) : (jsTrim s).length ≤ s.length := by
  have h1 : (s.rdropWhile isJsWs).length ≤ s.length := by
    simpa [List.rdropWhile] using length_dropWhile_le isJsWs s.reverse
  exact le_trans (length_dropWhile_le isJsWs (s.rdropWhile isJsWs)) h1

/-- A trailing newline is removed by trimming. -/
theorem jsTrim_append_newline (l : Str) : jsTrim (l ++ ['\n']) = jsTrim l := by
  unfold jsTrim
  rw [List.rdropWhile_concat_pos isJsWs l '\n' (by decide)]

/-- A list is a Boolean prefix of itself followed by anything. -/
theorem isPrefixOf_append_self (p t : Str) : p.isPrefixOf (p ++ t) = true := by
  induction p with
  | nil => simp [List.isPrefixOf]
  | cons a q ih => simp [List.isPrefixOf, ih]

/-- A Boolean prefix is no longer than the whole. -/
theorem isPrefixOf_length_le (p : Str) : ∀ l : Str, p.isPrefixOf l = true → p.length ≤ l.length := by
  induction p with
  | nil => intro l _; simp
  | cons a q ih =>
    intro l h
    cases l with
    | nil => simp [List.isPrefixOf] at h
    | cons b t =>
      simp only [List.isPrefixOf, Bool.and_eq_true] at h
      have := ih t h.2
      simp [List.length_cons]
      omega

/-- A found occurrence of a pattern fits inside the searched string. -/
theorem findSubstrIdx_bound (pat : Str) :
    ∀ (l : Str) (i : Nat), findSubstrIdx pat l = some i → i + pat.length ≤ l.length := by
  intro l
  induction l with
  | nil =>
    intro i h
    simp only [findSubstrIdx] at h
    by_cases hp : pat.isEmpty
    · simp [hp] at h
      have : pat = [] := by simpa [List.isEmpty_iff] using hp
      simp [← h, this]
    · simp [hp] at h
  | cons c rest ih =>
    intro i h
    simp only [findSubstrIdx] at h
    by_cases hp : pat.isPrefixOf (c :: rest) = true
    · simp [hp] at h
      have := isPrefixOf_length_le pat (c :: rest) hp
      omega
    · simp [hp] at h
      obtain ⟨j, hj, hji⟩ := h
      have := ih j hj
      simp [List.length_cons]
      omega

/-- A string containing the pattern as a factor includes it. -/
theorem includes_append_middle (pat : Str) :
    ∀ (x y : Str), includesList pat (x ++ pat ++ y) = true := by
  intro x
  induction x with
  | nil =>
    intro y
    unfold includesList
    rw [List.nil_append]
    cases hpy : pat ++ y with
    | nil =>
      have hp : pat = [] := by cases pat <;> simp_all
      subst hp
      have hy : y = [] := by simpa using hpy
      subst hy
      simp [findSubstrIdx]
    | cons c t =>
      have hpre : pat.isPrefixOf (pat ++ y) = true := isPrefixOf_append_self pat y
      rw [hpy] at hpre
      simp [findSubstrIdx, hpre]
  | cons a x ih =>
    intro y
    unfold includesList
    simp only [List.cons_append, findSubstrIdx]
    split
    · simp
    · simp only [List.append_eq]
      have h2 := ih y
      unfold includesList at h2
      rcases ho : findSubstrIdx pat (x ++ pat ++ y) with _ | j
      · rw [ho] at h2
        simp at h2
      · simp [ho]

/-- A fold that appends pieces equals the initial value followed by the
flattened pieces. -/
theorem foldl_append_eq_flatten {α : Type} (f : α → Str) :
    ∀ (l : List α) (init : Str),
      l.foldl (fun acc a => acc ++ f a) init = init ++ (l.map f).flatten := by
  intro l
  induction l with
  | nil => intro init; simp
  | cons a t ih =>
    intro init
    simp [List.foldl_cons, ih (init ++ f a), List.append_assoc]

/-- Each mapped element of a list is a factor of the flattened map. -/
theorem flatten_split_of_mem {α : Type} (f : α → Str) :
    ∀ (l : List α) (a : α), a ∈ l → ∃ u v, (l.map f).flatten = u ++ f a ++ v := by
  intro l
  induction l with
  | nil => intro a ha; simp at ha
  | cons b t ih =>
    intro a ha
    rcases List.mem_cons.mp ha with h | h
    · exact ⟨[], (t.map f).flatten, by simp [h]⟩
    · obtain ⟨u, v, huv⟩ := ih a h
      exact ⟨f b ++ u, v, by simp [huv, List.append_assoc]⟩

/-- The second field of a JavaScript `split` is the text between the first
and second separator occurrence (to the end when there is no second one). -/
theorem splitOnList_getD_one (sep line : Str) (i : Nat) (hs : 1 ≤ sep.length)
    (h : findSubstrIdx sep line = some i) :
    (splitOnList sep line).getD 1 [] =
      (match findSubstrIdx sep (line.drop (i + sep.length)) with
       | none => line.drop (i + sep.length)
       | some j => (line.drop (i + sep.length)).take j) := by
  have hbound := findSubstrIdx_bound sep line i h
  unfold splitOnList
  simp only [splitOnListAux, h]
  have hlen : 1 ≤ line.length := by omega
  obtain ⟨k, hk⟩ : ∃ k, line.length = k + 1 := ⟨line.length - 1, by omega⟩
  rw [hk]
  cases h2 : findSubstrIdx sep (line.drop (i + sep.length)) with
  | none => simp [splitOnListAux, h2]
  | some j => simp [splitOnListAux, h2]

/-- C10: for a line carrying a question or answer tag and the `':::'`
separator, the extractor records exactly the text between the first and
second `':::'` occurrence (to the end of the line when there is no second
occurrence), trimmed; when that text trims to empty the line contributes
no entry at all, so the corresponding sequence keeps its length and all
later entries of that sequence shift into the vacated position. -/
theorem parseQAStep_records_between_seps (line : Str) (st : List Str × List Str)
    (hsep : includesList fieldSepStr line = true) :
    (includesList qTagStr line = true →
       parseQAStep st line =
         if (jsTrim (textBetweenSeps line)).isEmpty then st
         else (st.1 ++ [jsTrim (textBetweenSeps line)], st.2)) ∧
    (includesList qTagStr line = false → includesList aTagStr line = true →
       parseQAStep st line =
         if (jsTrim (textBetweenSeps line)).isEmpty then st
         else (st.1, st.2 ++ [jsTrim (textBetweenSeps line)])) := by
  have hex : ∃ i, findSubstrIdx fieldSepStr line = some i := by
    unfold includesList at hsep
    exact Option.isSome_iff_exists.mp hsep
  obtain ⟨i, hi⟩ := hex
  have hbridge : (splitOnList fieldSepStr line).getD 1 [] = textBetweenSeps line := by
    rw [splitOnList_getD_one fieldSepStr line i (by decide) hi]
    unfold textBetweenSeps
    rw [hi]
  constructor
  · intro hq
    unfold parseQAStep
    rw [hbridge]
    simp [hq, hsep]
  · intro hq ha
    unfold parseQAStep
    rw [hbridge]
    simp [hq, ha, hsep]

/-- Witness for C10 at the concrete line `QUESTION_1::: hello :::x`. -/
theorem parseQAStep_records_between_seps_witness :
    parseQAStep ([], []) ("QUESTION_1::: hello :::x".data) =
      if (jsTrim (textBetweenSeps ("QUESTION_1::: hello :::x".data))).isEmpty
      then (([] : List Str), ([] : List Str))
      else (([] : List Str) ++ [jsTrim (textBetweenSeps ("QUESTION_1::: hello :::x".data))],
            ([] : List Str)) :=
  (parseQAStep_records_between_seps ("QUESTION_1::: hello :::x".data) ([], [])
    (by decide)).1 (by decide)

/-- Boolean prefix test agrees with the existential characterization. -/
theorem isPrefixOf_iff_ex (p : Str) : ∀ l : Str, p.isPrefixOf l = true ↔ ∃ t, p ++ t = l := by
  induction p with
  | nil => intro l; simp [List.isPrefixOf]
  | cons a q ih =>
    intro l
    cases l with
    | nil => simp [List.isPrefixOf]
    | cons b m =>
      simp only [List.isPrefixOf, Bool.and_eq_true, beq_iff_eq, ih m]
      constructor
      · rintro ⟨rfl, t, rfl⟩
        exact ⟨t, rfl⟩
      · rintro ⟨t, ht⟩
        simp only [List.cons_append, List.cons.injEq] at ht
        exact ⟨ht.1, t, ht.2⟩

/-- Boolean suffix test agrees with the existential characterization. -/
theorem isSuffixOf_iff_ex (p l : Str) : List.isSuffixOf p l = true ↔ ∃ t, t ++ p = l := by
  unfold List.isSuffixOf
  rw [isPrefixOf_iff_ex]
  constructor
  · rintro ⟨t, ht⟩
    refine ⟨t.reverse, ?_⟩
    have := congrArg List.reverse ht
    simpa using this
  · rintro ⟨t, rfl⟩
    exact ⟨t.reverse, by simp⟩

/-- C8: the classifier accepts an attachment exactly when the source tag is
the image marker, or the declared content type starts with `image/`, or
the URL ends with a dot and one of the six image extensions
(case-insensitively); it is a total Boolean function of the record's
fields, and any missing field simply makes its disjunct false. -/
theorem isImageAttachment_spec (a : Attachment) :
    isImageAttachment a = true ↔
      (a.source = some ("Image".data) ∨
       (∃ ct t, a.contentType = some ct ∧ ct = ("image/".data) ++ t) ∨
       (∃ u, a.url = some u ∧ ∃ e ∈ imageExts, ∃ t, lowerStr u = t ++ ('.' :: e))) := by
  have h1 : (match a.source with
      | some s => s == "Image".data
      | none => false) = true ↔ a.source = some ("Image".data) := by
    cases a.source <;> simp
  have h2 : (match a.contentType with
      | some ct => List.isPrefixOf ("image/".data) ct
      | none => false) = true ↔
      (∃ ct t, a.contentType = some ct ∧ ct = ("image/".data) ++ t) := by
    cases a.contentType with
    | none => simp
    | some ct =>
      simp only [isPrefixOf_iff_ex, Option.some.injEq]
      constructor
      · rintro ⟨t, rfl⟩
        exact ⟨("image/".data) ++ t, t, rfl, rfl⟩
      · rintro ⟨ct', t, hct, rfl⟩
        exact ⟨t, hct.symm⟩
  have h3 : (match a.url with
      | some u => hasImageExt u
      | none => false) = true ↔
      (∃ u, a.url = some u ∧ ∃ e ∈ imageExts, ∃ t, lowerStr u = t ++ ('.' :: e)) := by
    cases a.url with
    | none => simp
    | some u =>
      unfold hasImageExt
      simp only [List.any_eq_true, isSuffixOf_iff_ex, Option.some.injEq]
      constructor
      · rintro ⟨e, he, t, ht⟩
        exact ⟨u, rfl, e, he, t, ht.symm⟩
      · rintro ⟨u', hu, e, he, t, ht⟩
        cases hu
        exact ⟨e, he, t, ht.symm⟩
  unfold isImageAttachment
  simp only [Bool.or_eq_true]
  rw [or_assoc]
  exact or_congr h1 (or_congr h2 h3)

/-- Inclusion of a pattern is equivalent to a factorization of the string. -/
theorem includes_iff_factor (pat : Str) : ∀ l : Str,
    includesList pat l = true ↔ ∃ x y, l = x ++ pat ++ y := by
  intro l
  induction l with
  | nil =>
    unfold includesList
    simp only [findSubstrIdx]
    by_cases hp : pat.isEmpty
    · have hpe : pat = [] := by simpa [List.isEmpty_iff] using hp
      subst hpe
      simp
    · have hpe : pat ≠ [] := by simpa [List.isEmpty_iff] using hp
      rw [if_neg hp]
      simp only [Option.isSome_none, Bool.false_eq_true, false_iff]
      rintro ⟨x, y, hxy⟩
      have h0 : x ++ pat ++ y = [] := hxy.symm
      rcases List.append_eq_nil.mp h0 with ⟨h1, _⟩
      rcases List.append_eq_nil.mp h1 with ⟨_, h4⟩
      exact hpe h4
  | cons c rest ih =>
    unfold includesList
    simp only [findSubstrIdx]
    by_cases hp : pat.isPrefixOf (c :: rest) = true
    · rw [if_pos hp]
      simp only [Option.isSome_some, true_iff]
      obtain ⟨t, ht⟩ := (isPrefixOf_iff_ex pat (c :: rest)).mp hp
      exact ⟨[], t, by simp [ht]⟩
    · rw [if_neg hp]
      unfold includesList at ih
      constructor
      · intro hsome
        have hrest : (findSubstrIdx pat rest).isSome = true := by
          cases hfr : findSubstrIdx pat rest
          · rw [hfr] at hsome
            simp at hsome
          · simp
        obtain ⟨x, y, rfl⟩ := ih.mp hrest
        exact ⟨c :: x, y, by simp⟩
      · rintro ⟨x, y, hxy⟩
        cases x with
        | nil =>
          exfalso
          apply hp
          rw [isPrefixOf_iff_ex]
          exact ⟨y, by simpa using hxy.symm⟩
        | cons d x =>
          simp only [List.cons_append, List.cons.injEq] at hxy
          have hrest : (findSubstrIdx pat rest).isSome = true := ih.mpr ⟨x, y, hxy.2⟩
          cases hfr : findSubstrIdx pat rest
          · rw [hfr] at hrest
            simp at hrest
          · simp [hfr]

/-- Inclusion is preserved by prepending text. -/
theorem includes_append_left (pat a l : Str) (h : includesList pat l = true) :
    includesList pat (a ++ l) = true := by
  obtain ⟨x, y, rfl⟩ := (includes_iff_factor pat l).mp h
  exact (includes_iff_factor pat _).mpr ⟨a ++ x, y, by simp [List.append_assoc]⟩

/-- Inclusion is preserved by appending text. -/
theorem includes_append_right (pat l b : Str) (h : includesList pat l = true) :
    includesList pat (l ++ b) = true := by
  obtain ⟨x, y, rfl⟩ := (includes_iff_factor pat l).mp h
  exact (includes_iff_factor pat _).mpr ⟨x, y ++ b, by simp [List.append_assoc]⟩

/-- Indexing below the cut is unchanged by `take`. -/
theorem jsIndexStr_take (as : List Str) (n i : Nat) (h : i < n) :
    jsIndexStr (as.take n) i = jsIndexStr as i := by
  unfold jsIndexStr
  rw [List.get?_eq_getElem?, List.get?_eq_getElem?, List.getElem?_take]
  simp [h]

/-- C9: for an attachment whose URL is `https://x/y/pic.JPG` with no title,
name or content type, the derived local filename is exactly `pic.JPG`: the
last URL path segment is used, the `.JPG` extension is recognized
case-insensitively so nothing is appended, and sanitization leaves every
character unchanged. -/
theorem deriveFileName_picJPG :
    deriveFileName
      { id := some ("att1".data), title := none, name := none, source := none,
        contentType := none, url := some ("https://x/y/pic.JPG".data) }
      ("https://x/y/pic.JPG".data) = "pic.JPG".data := by
  decide

set_option maxRecDepth 4000 in
/-- Counterexample for C1: a captured stdout whose block yields two
questions but one answer; the delivered report still emits an entry for
the second question, pairing it with the text `undefined` instead of
dropping it. -/
theorem report_emits_unmatched_question_cex :
    parseChronosResults
        ("DISCORD_RESULTS_START\nQUESTION_1:::First question\nANSWER_1:::First answer\nQUESTION_2:::Second question\nDISCORD_RESULTS_END".data) =
      some (["First question".data, "Second question".data], ["First answer".data]) ∧
    includesList ("**A2:** undefined".data)
      (formatReport ["First question".data, "Second question".data]
        ["First answer".data]) = true :=
  ⟨by decide, by decide⟩

/-- C1 (amended): the report loop runs over the question sequence, so
excess answers beyond the number of questions are silently dropped, while
every question without a matching answer still produces a report entry
whose answer text is the literal string `undefined`. -/
theorem formatReport_pairs_by_question_index (qs as : List Str) :
    formatReport qs as = formatReport qs (as.take qs.length) ∧
    (as.length < qs.length →
      includesList ("undefined".data) (formatReport qs as) = true) := by
  constructor
  · unfold formatReport
    rw [foldl_append_eq_flatten (qaEntry qs as), foldl_append_eq_flatten (qaEntry qs (as.take qs.length))]
    have hmap : (List.range qs.length).map (qaEntry qs as) =
        (List.range qs.length).map (qaEntry qs (as.take qs.length)) := by
      apply List.map_congr_left
      intro i hi
      unfold qaEntry
      rw [jsIndexStr_take as qs.length i (List.mem_range.mp hi)]
    rw [hmap]
  · intro h
    have hj : jsIndexStr as as.length = "undefined".data := by
      unfold jsIndexStr
      rw [List.get?_eq_getElem?, List.getElem?_eq_none (le_refl as.length)]
    obtain ⟨u, v, huv⟩ :=
      flatten_split_of_mem (qaEntry qs as) (List.range qs.length) as.length
        (List.mem_range.mpr h)
    unfold formatReport
    rw [foldl_append_eq_flatten (qaEntry qs as), huv]
    apply includes_append_left
    apply includes_append_right
    apply includes_append_left
    unfold qaEntry
    rw [hj]
    apply includes_append_right
    apply includes_append_right
    exact includes_append_left _ _ _ (by decide)

/-- Witness for C1 with two questions and one answer. -/
theorem formatReport_pairs_by_question_index_witness :
    formatReport ["q1".data, "q2".data] ["a1".data] =
      formatReport ["q1".data, "q2".data]
        (["a1".data].take (["q1".data, "q2".data].length)) ∧
    includesList ("undefined".data)
      (formatReport ["q1".data, "q2".data] ["a1".data]) = true :=
  ⟨(formatReport_pairs_by_question_index ["q1".data, "q2".data] ["a1".data]).1,
   (formatReport_pairs_by_question_index ["q1".data, "q2".data] ["a1".data]).2 (by decide)⟩

/-- Counterexample for C2: with both markers present and nothing between
them the extractor does return the empty result set (not `none`), but the
orchestrator then behaves exactly as on extraction failure: it emits the
failure notice and delivers nothing. -/
theorem empty_resultset_treated_as_failure_cex :
    parseChronosResults ("DISCORD_RESULTS_START\nDISCORD_RESULTS_END".data) = some ([], []) ∧
    processAttachment ⟨true, true, true, 0, "DISCORD_RESULTS_START\nDISCORD_RESULTS_END".data⟩ =
      [Effect.fetchImage, Effect.writeFile, Effect.runPipeline, Effect.sendFailureNotice] :=
  ⟨by decide, by decide⟩

/-- C2 (amended): the extractor distinguishes an empty result set from a
missing block, but the orchestrator collapses the distinction — whenever
the parsed question list is empty it sends the same single failure notice
it sends on extraction failure and delivers no report. -/
theorem orchestrator_empty_results_failure (o : AttOracle) (qs as : List Str)
    (h1 : o.hasUrl = true) (h2 : o.fetchOk = true)
    (h3 : runChronos o = some (qs, as)) (h4 : qs = []) :
    processAttachment o =
      [Effect.fetchImage, Effect.writeFile, Effect.runPipeline, Effect.sendFailureNotice] := by
  subst h4
  unfold processAttachment attachmentTry
  simp [h1, h2, h3]

/-- Witness for C2 at a marker-only stdout containing one separator line. -/
theorem orchestrator_empty_results_failure_witness :
    processAttachment ⟨true, true, true, 0, "DISCORD_RESULTS_START\n---\nDISCORD_RESULTS_END".data⟩ =
      [Effect.fetchImage, Effect.writeFile, Effect.runPipeline, Effect.sendFailureNotice] :=
  orchestrator_empty_results_failure
    ⟨true, true, true, 0, "DISCORD_RESULTS_START\n---\nDISCORD_RESULTS_END".data⟩
    [] [] rfl rfl (by decide) rfl

/-- Counterexample for C3: with a concrete environment holding a 30
character OpenAI key, the invoker's second log line contains the first 20
characters of that credential in cleartext. -/
theorem chronos_logs_credential_cex :
    includesList ("sk-proj-ABCDEFGHIJKL".data)
      ((chronosStartupLogs
          [("OPENAI_API_KEY".data, "sk-proj-ABCDEFGHIJKLMNOPQRSTUV".data)]
          ("python".data) ("chronos/discord_main.py".data) ("img.png".data)
          ("user1".data)).getD 1 []) = true ∧
    "sk-proj-ABCDEFGHIJKL".data = ("sk-proj-ABCDEFGHIJKLMNOPQRSTUV".data).take 20 ∧
    "sk-proj-ABCDEFGHIJKL".data ≠ ([] : Str) :=
  ⟨by decide, by decide, by decide⟩

/-- C3 (amended): the child process does inherit the current environment
unmodified, but the invoker writes the first 20 characters of the
`OPENAI_API_KEY` and `GOOGLE_API_KEY` values to its log in cleartext. -/
theorem chronos_env_cleartext_key_logging (env : EnvMap) (p s img uid : Str) :
    chronosChildEnv env = env ∧
    (∀ v, List.lookup ("OPENAI_API_KEY".data) env = some v →
      includesList (v.take 20) ((chronosStartupLogs env p s img uid).getD 1 []) = true) ∧
    (∀ v, List.lookup ("GOOGLE_API_KEY".data) env = some v →
      includesList (v.take 20) ((chronosStartupLogs env p s img uid).getD 2 []) = true) := by
  refine ⟨rfl, ?_, ?_⟩
  · intro v hv
    show includesList (v.take 20) (envKeyLogLine env ("OPENAI_API_KEY".data)) = true
    unfold envKeyLogLine
    rw [hv]
    apply includes_append_right
    exact includes_append_left _ _ _ ((includes_iff_factor _ _).mpr ⟨[], [], by simp⟩)
  · intro v hv
    show includesList (v.take 20) (envKeyLogLine env ("GOOGLE_API_KEY".data)) = true
    unfold envKeyLogLine
    rw [hv]
    apply includes_append_right
    exact includes_append_left _ _ _ ((includes_iff_factor _ _).mpr ⟨[], [], by simp⟩)

/-- Witness for C3 with a two-entry environment. -/
theorem chronos_env_cleartext_key_logging_witness :
    chronosChildEnv [("OPENAI_API_KEY".data, "alpha-key".data), ("GOOGLE_API_KEY".data, "beta-key".data)] =
      [("OPENAI_API_KEY".data, "alpha-key".data), ("GOOGLE_API_KEY".data, "beta-key".data)] ∧
    includesList (("alpha-key".data).take 20)
      ((chronosStartupLogs
          [("OPENAI_API_KEY".data, "alpha-key".data), ("GOOGLE_API_KEY".data, "beta-key".data)]
          ("p".data) ("s".data) ("i".data) ("u".data)).getD 1 []) = true ∧
    includesList (("beta-key".data).take 20)
      ((chronosStartupLogs
          [("OPENAI_API_KEY".data, "alpha-key".data), ("GOOGLE_API_KEY".data, "beta-key".data)]
          ("p".data) ("s".data) ("i".data) ("u".data)).getD 2 []) = true :=
  ⟨(chronos_env_cleartext_key_logging
      [("OPENAI_API_KEY".data, "alpha-key".data), ("GOOGLE_API_KEY".data, "beta-key".data)]
      ("p".data) ("s".data) ("i".data) ("u".data)).1,
   (chronos_env_cleartext_key_logging _ ("p".data) ("s".data) ("i".data) ("u".data)).2.1
      ("alpha-key".data) (by decide),
   (chronos_env_cleartext_key_logging _ ("p".data) ("s".data) ("i".data) ("u".data)).2.2
      ("beta-key".data) (by decide)⟩

/-- Counterexample for C6: an attachment that reaches a terminal
extraction failure (exit code 0 but no delimited block in stdout) ends its
processing without any attempt to delete the temporary image file. -/
theorem no_delete_on_failure_cex :
    processAttachment ⟨true, true, true, 0, "no markers here".data⟩ =
      [Effect.fetchImage, Effect.writeFile, Effect.runPipeline, Effect.sendFailureNotice] ∧
    Effect.attemptDelete ∉ processAttachment ⟨true, true, true, 0, "no markers here".data⟩ :=
  ⟨by decide, by decide⟩

/-- C6 (amended): deletion of the temporary image file is attempted
exactly on the successful-delivery path — the attachment has a URL, the
fetch succeeds, and the pipeline result parses with at least one
question; on every per-attachment failure path (missing URL, fetch error,
launch or exit failure, extraction failure, empty question list) no
deletion is attempted and the file is left behind. -/
theorem processAttachment_delete_iff (o : AttOracle) :
    Effect.attemptDelete ∈ processAttachment o ↔
      (o.hasUrl = true ∧ o.fetchOk = true ∧
       ∃ qs as, runChronos o = some (qs, as) ∧ qs ≠ []) := by
  unfold processAttachment attachmentTry
  cases hu : o.hasUrl
  · simp
  · cases hf : o.fetchOk
    · simp
    · cases hr : runChronos o with
      | none => simp
      | some pr =>
        obtain ⟨qs, as⟩ := pr
        cases hq : qs.isEmpty
        · have hne : qs ≠ [] := by simpa [List.isEmpty_iff] using hq
          simp only [hq, Bool.false_eq_true, if_false]
          constructor
          · intro _
            exact ⟨trivial, trivial, qs, as, rfl, hne⟩
          · intro _
            simp [List.mem_append]
        · have he : qs = [] := List.isEmpty_iff.mp hq
          subst he
          simp

/-- C7: the handler's attachment loop always runs to completion — the
i-th produced effect list is exactly the i-th attachment's processing,
for every attachment — a pipeline exit with a non-zero code resolves to
the single failure notice rather than an exception, and any error thrown
inside one iteration is caught there and converted into the error notice. -/
theorem orchestrator_loop_isolates_failures :
    (∀ (atts : List AttOracle) (i : Nat),
      (processMessage atts).get? i = (atts.get? i).map processAttachment) ∧
    (∀ o : AttOracle, o.hasUrl = true → o.fetchOk = true → o.exitCode ≠ 0 →
      processAttachment o =
        [Effect.fetchImage, Effect.writeFile, Effect.runPipeline, Effect.sendFailureNotice]) ∧
    (∀ o : AttOracle, (attachmentTry o).2.isSome = true →
      processAttachment o = (attachmentTry o).1 ++ [Effect.sendErrorNotice]) := by
  refine ⟨?_, ?_, ?_⟩
  · intro atts
    induction atts with
    | nil => intro i; cases i <;> simp [processMessage]
    | cons o rest ih =>
      intro i
      cases i with
      | zero => simp [processMessage]
      | succ j =>
        have hj := ih j
        simp only [List.get?_eq_getElem?] at hj
        simpa [processMessage] using hj
  · intro o h1 h2 h3
    have hb : (o.exitCode != 0) = true := by simpa using h3
    unfold processAttachment attachmentTry runChronos
    cases hs : o.spawnOk
    · simp [h1, h2, hs]
    · simp [h1, h2, hs, hb]
  · intro o h
    unfold processAttachment
    rcases ht : attachmentTry o with ⟨effs, err⟩
    cases err with
    | none =>
      rw [ht] at h
      simp at h
    | some e =>
      rfl

/-- Witness for C7: an attachment whose pipeline exits with code 1 yields
exactly the failure notice. -/
theorem orchestrator_loop_isolates_failures_witness :
    processAttachment ⟨true, true, true, 1, "irrelevant".data⟩ =
      [Effect.fetchImage, Effect.writeFile, Effect.runPipeline, Effect.sendFailureNotice] :=
  orchestrator_loop_isolates_failures.2.1 ⟨true, true, true, 1, "irrelevant".data⟩
    rfl rfl (by decide)

/-- Flushing the running chunk preserves the chunk bound invariant. -/
theorem flush_preserves (L : Nat) (lines : List Str) (chunks : List Str) (cur : Str)
    (hchunks : ∀ c ∈ chunks, c.length ≤ L ∨
      ∃ l ∈ lines, ∃ s ∈ sentencesOf l, L < s.length ∧ c = jsTrim s)
    (hcur : (jsTrim cur).length ≤ L ∨
      ∃ l ∈ lines, ∃ s ∈ sentencesOf l, L < s.length ∧ cur = s) :
    ∀ c ∈ (if cur.isEmpty then chunks else chunks ++ [jsTrim cur]),
      c.length ≤ L ∨ ∃ l ∈ lines, ∃ s ∈ sentencesOf l, L < s.length ∧ c = jsTrim s := by
  intro c hc
  by_cases he : cur.isEmpty
  · rw [if_pos he] at hc
    exact hchunks c hc
  · rw [if_neg he] at hc
    rcases List.mem_append.mp hc with h | h
    · exact hchunks c h
    · have hce : c = jsTrim cur := by simpa using h
      subst hce
      rcases hcur with h2 | ⟨l, hl, s, hs, hLs, hcs⟩
      · exact Or.inl h2
      · exact Or.inr ⟨l, hl, s, hs, hLs, by rw [hcs]⟩

/-- C4: every chunk produced by the splitter fits within the limit, except
chunks that are the trimmed copy of a single regex sentence (or of a whole
unsplittable line, which stands as its own only sentence) that by itself
exceeds the limit. -/
theorem splitDiscordMessage_chunk_bound (text : Str) (L : Nat) (_hL : 1 ≤ L) :
    ∀ c ∈ splitDiscordMessage text L, c.length ≤ L ∨
      ∃ l ∈ splitOnList ("\n".data) text, ∃ s ∈ sentencesOf l,
        L < s.length ∧ c = jsTrim s := by
  intro c hc
  unfold splitDiscordMessage at hc
  by_cases ht : text.length ≤ L
  · rw [if_pos ht] at hc
    have hce : c = text := by simpa using hc
    subst hce
    exact Or.inl ht
  · rw [if_neg ht] at hc
    simp only [] at hc
    have key :
        (∀ c' ∈ ((splitOnList ("\n".data) text).foldl (chunkStep L) ([], [])).1,
          c'.length ≤ L ∨ ∃ l ∈ splitOnList ("\n".data) text, ∃ s ∈ sentencesOf l,
            L < s.length ∧ c' = jsTrim s) ∧
        ((jsTrim ((splitOnList ("\n".data) text).foldl (chunkStep L) ([], [])).2).length ≤ L ∨
          ∃ l ∈ splitOnList ("\n".data) text, ∃ s ∈ sentencesOf l,
            L < s.length ∧ ((splitOnList ("\n".data) text).foldl (chunkStep L) ([], [])).2 = s) := by
      apply foldlInv
        (P := fun st : List Str × Str =>
          (∀ c' ∈ st.1, c'.length ≤ L ∨ ∃ l ∈ splitOnList ("\n".data) text,
            ∃ s ∈ sentencesOf l, L < s.length ∧ c' = jsTrim s) ∧
          ((jsTrim st.2).length ≤ L ∨ ∃ l ∈ splitOnList ("\n".data) text,
            ∃ s ∈ sentencesOf l, L < s.length ∧ st.2 = s))
      · exact ⟨fun c' hc' => absurd hc' (List.not_mem_nil c'), Or.inl (by simp [jsTrim])⟩
      · intro st line hline hP
        unfold chunkStep
        by_cases h1 : L < (st.2 ++ line ++ ['\n']).length
        · rw [if_pos h1]
          simp only []
          have hflush := flush_preserves L (splitOnList ("\n".data) text) st.1 st.2 hP.1 hP.2
          by_cases h2 : L < line.length
          · rw [if_pos h2]
            apply foldlInv
              (P := fun st2 : List Str × Str =>
                (∀ c' ∈ st2.1, c'.length ≤ L ∨ ∃ l ∈ splitOnList ("\n".data) text,
                  ∃ s ∈ sentencesOf l, L < s.length ∧ c' = jsTrim s) ∧
                ((jsTrim st2.2).length ≤ L ∨ ∃ l ∈ splitOnList ("\n".data) text,
                  ∃ s ∈ sentencesOf l, L < s.length ∧ st2.2 = s))
            · exact ⟨hflush, Or.inl (by simp [jsTrim])⟩
            · intro st2 s hs hP2
              unfold sentenceStep
              by_cases h3 : L < (st2.2 ++ s).length
              · rw [if_pos h3]
                refine ⟨flush_preserves L (splitOnList ("\n".data) text) st2.1 st2.2 hP2.1 hP2.2, ?_⟩
                rcases Nat.lt_or_ge L s.length with hgt | hle
                · exact Or.inr ⟨line, hline, s, hs, hgt, rfl⟩
                · exact Or.inl (le_trans (jsTrim_length_le s) hle)
              · rw [if_neg h3]
                dsimp only
                refine ⟨hP2.1, Or.inl ?_⟩
                have hlen := jsTrim_length_le (st2.2 ++ s)
                omega
          · rw [if_neg h2]
            dsimp only
            refine ⟨hflush, Or.inl ?_⟩
            rw [jsTrim_append_newline]
            have hlen := jsTrim_length_le line
            omega
        · rw [if_neg h1]
          dsimp only
          refine ⟨hP.1, Or.inl ?_⟩
          have hlen := jsTrim_length_le (st.2 ++ line ++ ['\n'])
          omega
    by_cases he : ((splitOnList ("\n".data) text).foldl (chunkStep L) ([], [])).2.isEmpty
    · rw [if_pos he] at hc
      exact key.1 c hc
    · rw [if_neg he] at hc
      rcases List.mem_append.mp hc with h | h
      · exact key.1 c h
      · have hce : c = jsTrim ((splitOnList ("\n".data) text).foldl (chunkStep L) ([], [])).2 := by
          simpa using h
        subst hce
        rcases key.2 with h2 | ⟨l, hl, s, hs, hLs, hcs⟩
        · exact Or.inl h2
        · exact Or.inr ⟨l, hl, s, hs, hLs, by rw [hcs]⟩

/-- Witness for C4 at a small concrete text and limit. -/
theorem splitDiscordMessage_chunk_bound_witness :
    "ab".data ∈ splitDiscordMessage ("ab\ncd".data) 2 ∧
    (("ab".data).length ≤ 2 ∨
      ∃ l ∈ splitOnList ("\n".data) ("ab\ncd".data), ∃ s ∈ sentencesOf l,
        2 < s.length ∧ "ab".data = jsTrim s) :=
  ⟨by decide, splitDiscordMessage_chunk_bound ("ab\ncd".data) 2 (by decide) ("ab".data) (by decide)⟩

/-- A run that no element satisfies is not dropped. -/
theorem dropWhile_eq_self_of_none {α : Type} (p : α → Bool) (l : List α)
    (h : ∀ c ∈ l, p c = false) : l.dropWhile p = l := by
  cases l with
  | nil => rfl
  | cons a t => simp [List.dropWhile_cons, h a (List.mem_cons_self a t)]

/-- Trimming leaves a string with no whitespace at all unchanged. -/
theorem jsTrim_eq_self_of_no_ws (l : Str) (h : ∀ c ∈ l, isJsWs c = false) :
    jsTrim l = l := by
  unfold jsTrim
  have h1 : l.rdropWhile isJsWs = l := by
    unfold List.rdropWhile
    rw [dropWhile_eq_self_of_none isJsWs l.reverse (fun c hc => h c (List.mem_reverse.mp hc))]
    exact List.reverse_reverse l
  rw [h1]
  exact dropWhile_eq_self_of_none isJsWs l h

/-- A single-character pattern absent from a string is never found. -/
theorem findSubstrIdx_single_none (a : Char) (l : Str) (h : ∀ c ∈ l, c ≠ a) :
    findSubstrIdx [a] l = none := by
  induction l with
  | nil => rfl
  | cons c rest ih =>
    have hca : (a == c) = false := by
      simp only [beq_eq_false_iff_ne]
      exact fun he => h c (List.mem_cons_self c rest) he.symm
    simp only [findSubstrIdx, List.isPrefixOf, hca, Bool.false_and, Bool.false_eq_true, if_false]
    rw [ih (fun c' hc' => h c' (List.mem_cons_of_mem c hc'))]
    rfl

/-- Splitting on a character that does not occur yields the whole string. -/
theorem splitOnList_single_of_no_sep (a : Char) (l : Str) (h : ∀ c ∈ l, c ≠ a) :
    splitOnList [a] l = [l] := by
  unfold splitOnList
  simp [splitOnListAux, findSubstrIdx_single_none a l h]

/-- A line with no sentence-terminal punctuation has no regex match. -/
theorem sentenceMatches_eq_nil_of_no_punct (l : Str) (h : ∀ c ∈ l, isPunct c = false) :
    sentenceMatches l = [] := by
  unfold sentenceMatches
  cases l with
  | nil => rfl
  | cons c rest =>
    have hc : isPunct c = false := h c (List.mem_cons_self c rest)
    have hdrop : (c :: rest).dropWhile (fun x => !isPunct x) = [] :=
      List.dropWhile_eq_nil_iff.mpr (fun x hx => by simp [h x hx])
    simp [sentenceMatchesAux, hc, hdrop]

/-- A single over-long line with no newline, no sentence punctuation and no
surrounding whitespace is returned by the chunker as one oversized chunk,
verbatim. -/
theorem splitDiscordMessage_single_line (line : Str) (L : Nat)
    (hlen : L < line.length)
    (hnl : ∀ c ∈ line, c ≠ '\n')
    (hpunct : sentenceMatches line = [])
    (htrim : jsTrim line = line) :
    splitDiscordMessage line L = [line] := by
  unfold splitDiscordMessage
  rw [if_neg (by omega)]
  have hnl2 : ("\n".data) = ['\n'] := rfl
  rw [hnl2, splitOnList_single_of_no_sep '\n' line hnl]
  simp only [List.foldl_cons, List.foldl_nil]
  unfold chunkStep
  have h1 : L < (([] : Str) ++ line ++ ['\n']).length := by
    simp only [List.nil_append, List.length_append, List.length_cons, List.length_nil]
    omega
  rw [if_pos h1]
  simp only [List.isEmpty_nil, if_true]
  rw [if_pos hlen]
  have hsent : sentencesOf line = [line] := by
    unfold sentencesOf
    rw [hpunct]
    rfl
  rw [hsent]
  simp only [List.foldl_cons, List.foldl_nil]
  unfold sentenceStep
  have h3 : L < (([] : Str) ++ line).length := by simpa using hlen
  rw [if_pos h3]
  have hne : line.isEmpty = false := by
    cases line with
    | nil => simp at hlen
    | cons c t => rfl
  simp [hne, htrim]

/-- C5: a single line of 5000 characters with no sentence-terminal
punctuation and limit 1900 is returned as one oversized chunk, verbatim —
nothing is raised, truncated or dropped. -/
theorem splitDiscordMessage_oversized_5000 :
    splitDiscordMessage (List.replicate 5000 'a') 1900 = [List.replicate 5000 'a'] := by
  apply splitDiscordMessage_single_line
  · rw [List.length_replicate]
    omega
  · intro c hc
    have := (List.eq_of_mem_replicate hc)
    subst this
    decide
  · apply sentenceMatches_eq_nil_of_no_punct
    intro c hc
    have := (List.eq_of_mem_replicate hc)
    subst this
    decide
  · apply jsTrim_eq_self_of_no_ws
    intro c hc
    have := (List.eq_of_mem_replicate hc)
    subst this
    decide
